import Mathlib

/-!
Verification development for a triangular-arbitrage trading bot
(`Console.py`).  The Python source is shallowly embedded: strings become
`List Char`, floats and timestamps become `ℚ`, dictionaries become
association lists, exceptions become `Except`, and the side effects that
matter to the specification (notifications, order placements, lock
releases) are recorded as explicit event lists.
-/

namespace Console


/-- Symbols, route ids and currency names are Python strings, embedded as
character lists. -/
abbrev Sym := List Char

/-- Python `s.startswith(pat)`: `pat` is a prefix of `s`. -/
def startsWithL : Sym → Sym → Bool
  | [], _ => true
  | _ :: _, [] => false
  | p :: ps, c :: cs => p == c && startsWithL ps cs

/-- Python `s.endswith(pat)`: `pat` is a suffix of `s`. -/
def endsWithL (pat s : Sym) : Bool :=
  startsWithL pat.reverse s.reverse

/-- Python `s.split('/')`. -/
def splitSlash : Sym → List Sym
  | [] => [[]]
  | c :: rest =>
    if c = '/' then [] :: splitSlash rest
    else
      match splitSlash rest with
      | [] => [[c]]
      | w :: ws => (c :: w) :: ws

/-- Python dict lookup `d.get(k)` over an association list. -/
def assocGet {V : Type} : List (Sym × V) → Sym → Option V
  | [], _ => none
  | (k', v) :: rest, k => if k' = k then some v else assocGet rest k

/-- Python dict deletion `d.pop(k, None)` over an association list. -/
def assocErase {V : Type} : List (Sym × V) → Sym → List (Sym × V)
  | [], _ => []
  | (k', v) :: rest, k =>
    if k' = k then assocErase rest k else (k', v) :: assocErase rest k

/-- Python dict assignment `d[k] = v` over an association list. -/
def assocSet {V : Type} (m : List (Sym × V)) (k : Sym) (v : V) :
    List (Sym × V) :=
  (k, v) :: assocErase m k

/-! ## Execution price estimator (`get_avg_price`, lines 233-257) -/

/-- Accumulating loop of `get_avg_price`: walks the order-book side,
threading `total_base`, `total_usd` and `max_liquidity`, and returns the
three accumulators when the loop breaks or the levels run out.  Mirrors
the `for price, volume in orderbook_side` loop of the source. -/
def fillWalk (target : ℚ) : List (ℚ × ℚ) → ℚ → ℚ → ℚ → ℚ × ℚ × ℚ
  | [], total_base, total_usd, max_liquidity =>
    (total_base, total_usd, max_liquidity)
  | (price, volume) :: rest, total_base, total_usd, max_liquidity =>
    let usd := price * volume
    let max_liquidity' := max_liquidity + usd
    if target ≤ total_usd + usd then
      (total_base + (target - total_usd) / price,
       total_usd + (target - total_usd), max_liquidity')
    else
      fillWalk target rest (total_base + volume) (total_usd + usd)
        max_liquidity'

/-- Price of the level at which the walk of `get_avg_price` stops: the
level where the remaining target is partially taken, or the last level
when the book runs out first. -/
def lastConsumedPrice (target : ℚ) : List (ℚ × ℚ) → ℚ → ℚ
  | [], _ => 0
  | (price, volume) :: rest, total_usd =>
    if target ≤ total_usd + price * volume then price
    else
      match rest with
      | [] => price
      | _ :: _ => lastConsumedPrice target rest (total_usd + price * volume)

/-- Total notional `price * volume` summed over a level list. -/
def usdSum (levels : List (ℚ × ℚ)) : ℚ :=
  (levels.map (fun pv => pv.1 * pv.2)).sum

/-- `get_avg_price(orderbook_side, target_usdt)`: returns
`(avg_price?, total_usd, max_liquidity)`; the average price is `None`
when the filled notional is below 90% of the target. -/
def get_avg_price (orderbook_side : List (ℚ × ℚ)) (target_usdt : ℚ) :
    Option ℚ × ℚ × ℚ :=
  let r := fillWalk target_usdt orderbook_side 0 0 0
  if r.2.1 < target_usdt * (9 / 10) then (none, 0, r.2.2)
  else (some (r.2.1 / r.1), r.2.1, r.2.2)

/-- Price of the first (best) level, `0` for an empty book. -/
def bestPrice (levels : List (ℚ × ℚ)) : ℚ :=
  (levels.headD (0, 0)).1

/-- Levels ordered with non-decreasing prices (an ask side listed
best-to-worst). -/
def pricesAsc (levels : List (ℚ × ℚ)) : Prop :=
  levels.Pairwise (fun a b => a.1 ≤ b.1)

/-- Levels ordered with non-increasing prices (a bid side listed
best-to-worst). -/
def pricesDesc (levels : List (ℚ × ℚ)) : Prop :=
  levels.Pairwise (fun a b => b.1 ≤ a.1)

/-! ## Market graph builder (`find_triangles`, lines 217-231) -/

/-- `START_COINS = ['USDT', 'BTC', 'ETH']` (line 37). -/
def START_COINS : List Sym :=
  [['U', 'S', 'D', 'T'], ['B', 'T', 'C'], ['E', 'T', 'H']]

/-- Body of the two inner loops of `find_triangles` for one choice of
`base`, `sym1` and `sym2`: the candidate triangle emitted for that
combination (empty when a guard fails).  The `endswith` guard and the
`mid1` computation are hoisted from the `sym1` loop into this
per-combination body; binding an empty list for every `sym2` is the same
as skipping the inner loop. -/
def triExpand (symbols : List Sym) (base sym1 sym2 : Sym) :
    List (Sym × Sym × Sym) :=
  if endsWithL ('/' :: base) sym1 then
    let mid1 := (splitSlash sym1).headD []
    if startsWithL (mid1 ++ ['/']) sym2 then
      let mid2 := ((splitSlash sym2).drop 1).headD []
      let third := mid2 ++ '/' :: base
      if third ∈ symbols then [(base, mid1, mid2)] else []
    else []
  else []

/-- `find_triangles(symbols)`: the triple loop over anchors and symbol
pairs, appending `(base, mid1, mid2)` whenever the third pair
`mid2/base` exists in the catalog. -/
def find_triangles (symbols : List Sym) : List (Sym × Sym × Sym) :=
  START_COINS.flatMap (fun base =>
    symbols.flatMap (fun sym1 =>
      symbols.flatMap (fun sym2 => triExpand symbols base sym1 sym2)))

/-! ## Risk guard, trade executor and evaluator
(`check_trade_limits` lines 349-399, `can_execute_trade` lines 401-426,
`execute_real_trade` lines 428-464, `check_triangle` lines 466-566,
`cleanup_old_data` lines 580-591) -/

/-- Order side. -/
inductive Side where
  | buy
  | sell
deriving DecidableEq

/-- Trading parameters (lines 33-48): the commission rate, profit band,
trade volume (`TRADE_VOLUME` env, default 10) and the three sliding
window limits (env, defaults 5/30/100). -/
structure Config where
  commission : ℚ
  min_profit : ℚ
  max_profit : ℚ
  target_volume : ℚ
  max_trades_per_minute : ℕ
  max_trades_per_hour : ℕ
  max_trades_per_day : ℕ

/-- The configuration with every parameter at its source default. -/
def defaultConfig : Config :=
  ⟨1 / 1000, 3 / 20, 2, 10, 5, 30, 100⟩

/-- `MAX_CONCURRENT_TRADES = 1` (line 42). -/
def MAX_CONCURRENT_TRADES : ℕ := 1

/-- `TRADE_COOLDOWN = timedelta(minutes=5)`, in seconds (line 51). -/
def TRADE_COOLDOWN : ℚ := 300

/-- `'USDT'`. -/
def USDT : Sym := ['U', 'S', 'D', 'T']

/-- The global `last_trade_time` variable: initialised as a per-route
dict, but rebound to a bare timestamp by `check_triangle` (line 544)
after a successful trade. -/
inductive LastVar where
  | dict (m : List (Sym × ℚ))
  | stamp (t : ℚ)
deriving DecidableEq

/-- The mutable process state read and written by the risk guard and
the executor: `active_trades`, `trade_history`,
`trade_limits_suspended`, `current_balances` and `last_trade_time`. -/
structure SysState where
  active_trades : List (Sym × ℚ)
  trade_history : List ℚ
  trade_limits_suspended : Bool
  current_balances : List (Sym × ℚ)
  last_trade_time : LastVar
deriving DecidableEq

/-- Which sliding window rejected the check (`reason`), or `ok`. -/
inductive LimitReason where
  | minute
  | hour
  | day
  | ok
deriving DecidableEq

/-- Result of `check_trade_limits`: the returned boolean, the reason,
the new `trade_limits_suspended` flag, and how many suspension/resume
notifications were sent during this call. -/
structure LimitsResult where
  allowed : Bool
  reason : LimitReason
  suspended : Bool
  susNotifs : ℕ
  resumeNotifs : ℕ
deriving DecidableEq

/-- `check_trade_limits()` (lines 349-399): checks the minute, hour and
day windows in order; on a violated window it suspends trading and, only
on the transition into suspension, sends one notification; when no
window is violated it clears a set flag and sends one resume
notification. -/
def check_trade_limits (cfg : Config) (now : ℚ) (trade_history : List ℚ)
    (suspended : Bool) : LimitsResult :=
  let recent_minute := trade_history.filter (fun t => now - t < 60)
  if cfg.max_trades_per_minute ≤ recent_minute.length then
    ⟨false, .minute, true, if suspended then 0 else 1, 0⟩
  else
    let recent_hour := trade_history.filter (fun t => now - t < 3600)
    if cfg.max_trades_per_hour ≤ recent_hour.length then
      ⟨false, .hour, true, if suspended then 0 else 1, 0⟩
    else
      let recent_day := trade_history.filter (fun t => now - t < 86400)
      if cfg.max_trades_per_day ≤ recent_day.length then
        ⟨false, .day, true, if suspended then 0 else 1, 0⟩
      else
        ⟨true, .ok, false, 0, if suspended then 1 else 0⟩

/-- Python exceptions that can escape the modelled code. -/
inductive PyErr where
  | attributeError
  | typeError
deriving DecidableEq

/-- Tail of `can_execute_trade` after the cooldown check passed
(lines 414-426): the sliding-window limits, then the USDT balance
floor. -/
def guard_after_cooldown (cfg : Config) (now : ℚ) (st : SysState) :
    Except PyErr (Bool × SysState) :=
  let r := check_trade_limits cfg now st.trade_history
    st.trade_limits_suspended
  let st' := {st with trade_limits_suspended := r.suspended}
  if r.allowed = false then .ok (false, st')
  else
    let usdt_balance := (assocGet st'.current_balances USDT).getD 0
    if usdt_balance < cfg.target_volume * (11 / 10) then
      .ok (false, st')
    else
      .ok (true, st')

/-- `can_execute_trade(route_id)` (lines 401-426): concurrency cap,
per-route cooldown (via `last_trade_time.get`, which raises
`AttributeError` when the global has been rebound to a timestamp), the
sliding-window limits, then the USDT balance floor.  Returns the
decision and the state with the updated suspension flag. -/
def can_execute_trade (cfg : Config) (now : ℚ) (st : SysState)
    (route_id : Sym) : Except PyErr (Bool × SysState) :=
  if MAX_CONCURRENT_TRADES ≤ st.active_trades.length then
    .ok (false, st)
  else
    match st.last_trade_time with
    | .stamp _ => .error .attributeError
    | .dict m =>
      match assocGet m route_id with
      | some last_time =>
        if now - last_time < TRADE_COOLDOWN then .ok (false, st)
        else guard_after_cooldown cfg now st
      | none => guard_after_cooldown cfg now st

/-- Observable side effects of the evaluator and executor. -/
inductive Ev where
  | placeOrder (sym : Sym) (side : Side) (amount : ℚ)
  | lockRelease
  | stampTime
  | riskCheck
  | detectNotify
  | logDetect
  | execNotify
  | failNotify
  | errorNotify
deriving DecidableEq

/-- One trade leg `(symbol, side, amount)`. -/
abbrev Step := Sym × Side × ℚ

/-- The order-placement loop of `execute_real_trade` (lines 436-452):
places each leg in sequence via an oracle `place` telling whether the
`i`-th `create_order` call succeeds; on a failure the loop stops with
the exception, leaving later legs unattempted. -/
def run_legs (place : ℕ → Bool) : List Step → ℕ → Bool × List Ev
  | [], _ => (true, [])
  | (symbol, side, amount) :: rest, i =>
    if place i then
      let r := run_legs place rest (i + 1)
      (r.1, .placeOrder symbol side amount :: r.2)
    else
      (false, [.placeOrder symbol side amount])

/-- `execute_real_trade(route_id, steps)` (lines 428-464): registers
the route in `active_trades`, runs the legs, and in the `finally`
block releases the lock, stamps `last_trade_time[route_id]` and appends
to `trade_history`.  When the `last_trade_time` global has been rebound
to a timestamp, the stamp assignment raises `TypeError` after the pop
and before the history append. -/
def execute_real_trade (place : ℕ → Bool) (now : ℚ) (route_id : Sym)
    (steps : List Step) (st : SysState) :
    Except PyErr Bool × SysState × List Ev :=
  let st1 := {st with active_trades := assocSet st.active_trades route_id now}
  let r := run_legs place steps 0
  match st1.last_trade_time with
  | .dict m =>
    (.ok r.1,
     { st1 with
       active_trades := assocErase st1.active_trades route_id,
       last_trade_time := LastVar.dict (assocSet m route_id now),
       trade_history := st1.trade_history ++ [now] },
     r.2 ++ [.lockRelease, .stampTime])
  | .stamp _ =>
    (.error .typeError,
     {st1 with active_trades := assocErase st1.active_trades route_id},
     r.2 ++ [.lockRelease])

/-- `f"{base}->{mid1}->{mid2}->{base}"`. -/
def mkRoute (base mid1 mid2 : Sym) : Sym :=
  base ++ '-' :: '>' :: (mid1 ++ '-' :: '>' :: (mid2 ++ '-' :: '>' :: base))

/-- Python truthiness of an optional float: `None` and `0.0` are falsy,
as in `if not price1`. -/
def pyFalsy (o : Option ℚ) : Bool :=
  match o with
  | none => true
  | some x => x == 0

/-- Inputs of one `check_triangle` call: the triangle, the catalog, the
`markets` minimum-amount lookup, the execution-price oracle, the
order-placement oracle, the balance returned by the forced refresh, and
the current time. -/
structure TriInput where
  base : Sym
  mid1 : Sym
  mid2 : Sym
  symbols : List Sym
  markets : Sym → Option ℚ
  est : Sym → Side → ℚ → Option ℚ × ℚ × ℚ
  place : ℕ → Bool
  fetchBal : Option (List (Sym × ℚ))
  now : ℚ

/-- Chained net return in percent (lines 502-506). -/
def profit_percent (cfg : Config) (price1 price2 price3 : ℚ) : ℚ :=
  let step1 := (1 / price1) * (1 - cfg.commission)
  let step2 := step1 * (1 / price2) * (1 - cfg.commission)
  let step3 := step2 * price3 * (1 - cfg.commission)
  (step3 - 1) * 100

/-- `refresh_balances(force=True)` (lines 317-347) as it affects the
state: on a successful fetch the balances are replaced by the positive
entries; on a fetch error the old balances are kept. -/
def refresh_balances_model (st : SysState)
    (fetchBal : Option (List (Sym × ℚ))) : SysState :=
  match fetchBal with
  | some bs => {st with current_balances := bs.filter (fun kv => 0 < kv.2)}
  | none => st

/-- Post-gate tail of `check_triangle` (lines 514-559): detection
notification and log, the three trade legs sized from the first two
prices, the executor call, the success bookkeeping — including the
rebinding of `last_trade_time` to a bare timestamp on success
(line 544) — and the forced balance refresh. -/
def do_execute (cfg : Config) (inp : TriInput) (st2 : SysState)
    (route_id s1 s2 s3 : Sym) (price1 price2 : ℚ) :
    SysState × Bool × List Ev :=
  let steps : List Step :=
    [(s1, Side.buy, cfg.target_volume),
     (s2, Side.buy, cfg.target_volume / price1 * (1 - cfg.commission)),
     (s3, Side.sell,
       cfg.target_volume / price1 / price2 * (1 - 2 * cfg.commission))]
  let r := execute_real_trade inp.place inp.now route_id steps st2
  match r.1 with
  | .error _ =>
    (r.2.1, false,
     .riskCheck :: .detectNotify :: .logDetect :: r.2.2 ++ [.errorNotify])
  | .ok succ =>
    let st4 :=
      if succ then {r.2.1 with last_trade_time := LastVar.stamp inp.now}
      else r.2.1
    let st5 := refresh_balances_model st4 inp.fetchBal
    (st5, succ,
     .riskCheck :: .detectNotify :: .logDetect ::
       r.2.2 ++ [if succ then Ev.execNotify else Ev.failNotify])

/-- `check_triangle(base, mid1, mid2, symbols, markets)`
(lines 466-566): route availability, minimum volume, the three chained
estimator calls with their gates, the profit band, the risk-guard gate,
then detection notification and execution; a successful trade rebinds
the `last_trade_time` global to a bare timestamp (line 544).  Exceptions
from the gate or the executor are caught by the surrounding `except`,
which sends an error notification.  Returns the new state, the success
flag and the event trace. -/
def check_triangle (cfg : Config) (inp : TriInput) (st : SysState) :
    SysState × Bool × List Ev :=
  let route_id := mkRoute inp.base inp.mid1 inp.mid2
  let s1 := inp.mid1 ++ '/' :: inp.base
  let s2 := inp.mid2 ++ '/' :: inp.mid1
  let s3 := inp.mid2 ++ '/' :: inp.base
  if ¬ (s1 ∈ inp.symbols ∧ s2 ∈ inp.symbols ∧ s3 ∈ inp.symbols) then
    (st, false, [])
  else
    let minvol_fail : Bool :=
      match inp.markets s1 with
      | some min_amount => decide (cfg.target_volume < min_amount * 10)
      | none => false
    if minvol_fail then (st, false, [])
    else
      let r1 := inp.est s1 .buy cfg.target_volume
      if pyFalsy r1.1 ∨ r1.2.1 < cfg.target_volume * (4 / 5) then
        (st, false, [])
      else
        let r2 := inp.est s2 .buy (r1.2.1 * (99 / 100))
        if pyFalsy r2.1 then (st, false, [])
        else
          let r3 := inp.est s3 .sell (r2.2.1 * (99 / 100))
          if pyFalsy r3.1 then (st, false, [])
          else
            let price1 := r1.1.getD 0
            let price2 := r2.1.getD 0
            let price3 := r3.1.getD 0
            let profit := profit_percent cfg price1 price2 price3
            if ¬ (cfg.min_profit ≤ profit ∧ profit ≤ cfg.max_profit) then
              (st, false, [])
            else
              match can_execute_trade cfg inp.now st route_id with
              | .error _ => (st, false, [.riskCheck, .errorNotify])
              | .ok (false, st2) => (st2, false, [.riskCheck])
              | .ok (true, st2) =>
                do_execute cfg inp st2 route_id s1 s2 s3 price1 price2

/-- `cleanup_old_data()` (lines 580-591): filters the trade history,
then rebuilds the `last_trade_time` dict; when the global holds a bare
timestamp the dict comprehension raises `AttributeError` (caught by the
main loop) after the history was already filtered. -/
def cleanup_old_data (now : ℚ) (st : SysState) : SysState :=
  let st1 :=
    {st with trade_history :=
      st.trade_history.filter (fun t => now - t < 604800)}
  match st1.last_trade_time with
  | .dict m =>
    {st1 with last_trade_time :=
      LastVar.dict (m.filter (fun kv => now - 604800 < kv.2))}
  | .stamp _ => st1

/-- One iteration step of the scanning run: a `check_triangle` call or
an hourly cleanup sweep. -/
inductive RunEv where
  | tri (inp : TriInput)
  | sweep (now : ℚ)

/-- Folds a list of run events over the state, counting the successful
trade executions. -/
def runEvents (cfg : Config) : SysState → List RunEv → SysState × ℕ
  | st, [] => (st, 0)
  | st, .tri inp :: rest =>
    let r := check_triangle cfg inp st
    let rr := runEvents cfg r.1 rest
    (rr.1, (if r.2.1 then 1 else 0) + rr.2)
  | st, .sweep t :: rest => runEvents cfg (cleanup_old_data t st) rest

/-- The state after `main()` resets the globals (lines 676-685):
no active trades, empty history, no suspension, empty balances and an
empty per-route dict. -/
def initState : SysState := ⟨[], [], false, [], .dict []⟩

/-- The order-placement events of a trace, as legs. -/
def placedOf (evs : List Ev) : List Step :=
  evs.filterMap (fun e =>
    match e with
    | .placeOrder s sd a => some (s, sd, a)
    | _ => none)

/-- `'BTC'`. -/
def BTC : Sym := ['B', 'T', 'C']

/-- `'ETH'`. -/
def ETH : Sym := ['E', 'T', 'H']

/-- A fresh idle state with a comfortable USDT balance. -/
def stC1 : SysState := ⟨[], [], false, [(USDT, 100)], .dict []⟩

/-- The state right after a successful trade at time 0: the executor
recorded the trade and `check_triangle` line 544 rebound
`last_trade_time` to a bare timestamp. -/
def stStamped : SysState := ⟨[], [0], false, [(USDT, 100)], .stamp 0⟩

/-- An idle state with a healthy USDT balance but an empty BTC
balance. -/
def stC7 : SysState := ⟨[], [], false, [(USDT, 100), (BTC, 0)], .dict []⟩

/-- An idle state whose USDT balance is below the floor. -/
def stLowBal : SysState := ⟨[], [], false, [(USDT, 5)], .dict []⟩

/-- Route `USDT->BTC->ETH->USDT`. -/
def routeA : Sym := mkRoute USDT BTC ETH

/-- Route `USDT->ETH->BTC->USDT`. -/
def routeB : Sym := mkRoute USDT ETH BTC

/-- Route `BTC->USDT->ETH->BTC`, anchored at BTC. -/
def routeBTC : Sym := mkRoute BTC USDT ETH

/-- Concrete three-leg step list for the executor instantiation. -/
def wSteps : List Step :=
  [(['A'], Side.buy, 10), (['B'], Side.buy, 5), (['C'], Side.sell, 2)]

/-- Order-placement oracle that fails exactly on the second leg
(index 1). -/
def wPlace : ℕ → Bool := fun i => !(i == 1)

/-- Catalog containing a malformed symbol with two slashes
(`A/X/USDT`), alongside `A/USDT`, `A/B` and `B/USDT`. -/
def symsDup : List Sym :=
  [['A', '/', 'U', 'S', 'D', 'T'],
   ['A', '/', 'X', '/', 'U', 'S', 'D', 'T'],
   ['A', '/', 'B'],
   ['B', '/', 'U', 'S', 'D', 'T']]

/-- Well-formed catalog `BTC/USDT, ETH/BTC, ETH/USDT`. -/
def symsTri : List Sym :=
  [['B', 'T', 'C', '/', 'U', 'S', 'D', 'T'],
   ['E', 'T', 'H', '/', 'B', 'T', 'C'],
   ['E', 'T', 'H', '/', 'U', 'S', 'D', 'T']]

/-- Evaluator input whose estimator always returns price 1 and fill 10:
the chained return is then negative (three commissions), outside the
profit band. -/
def wTriInput : TriInput :=
  ⟨USDT, BTC, ETH, symsTri, fun _ => none, fun _ _ _ => (some 1, 10, 10),
   fun _ => true, none, 0⟩


theorem assocGet_assocSet {V : Type} (m : List (Sym × V)) (k : Sym) (v : V) :
    assocGet (assocSet m k v) k = some v := by
  simp [assocSet, assocGet]

theorem assocErase_idem {V : Type} (m : List (Sym × V)) (k : Sym) :
    assocErase (assocErase m k) k = assocErase m k := by
  induction m with
  | nil => simp [assocErase]
  | cons hd tl ih =>
    obtain ⟨k', v⟩ := hd
    by_cases h : k' = k
    · simpa [assocErase, h] using ih
    · simpa [assocErase, h] using ih

theorem assocErase_assocSet {V : Type} (m : List (Sym × V)) (k : Sym)
    (v : V) : assocErase (assocSet m k v) k = assocErase m k := by
  simp [assocSet, assocErase, assocErase_idem]

theorem assocGet_assocErase {V : Type} (m : List (Sym × V)) (k : Sym) :
    assocGet (assocErase m k) k = none := by
  induction m with
  | nil => simp [assocErase, assocGet]
  | cons hd tl ih =>
    obtain ⟨k', v⟩ := hd
    by_cases h : k' = k
    · simpa [assocErase, h] using ih
    · simpa [assocErase, assocGet, h] using ih

theorem usdSum_cons (p v : ℚ) (rest : List (ℚ × ℚ)) :
    usdSum ((p, v) :: rest) = p * v + usdSum rest := by
  simp [usdSum]

/-- Walk invariant on an ascending (ask-side) book: the walk fills the
target exactly, consumes a positive base quantity, and the filled
notional is bracketed by `lo * base` and `lastConsumedPrice * base`. -/
theorem fillWalk_spec_asc (target lo : ℚ) (L : List (ℚ × ℚ)) :
    ∀ tb tu ml : ℚ,
      (∀ pv ∈ L, 0 < pv.1 ∧ 0 < pv.2) →
      L.Pairwise (fun a b => a.1 ≤ b.1) →
      (∀ pv ∈ L, lo ≤ pv.1) →
      tu < target → target ≤ tu + usdSum L →
      0 ≤ tb → lo * tb ≤ tu →
      (∀ p v rest, L = (p, v) :: rest → tu ≤ p * tb) →
      (fillWalk target L tb tu ml).2.1 = target ∧
      0 < (fillWalk target L tb tu ml).1 ∧
      lo * (fillWalk target L tb tu ml).1 ≤ target ∧
      target ≤ lastConsumedPrice target L tu * (fillWalk target L tb tu ml).1 := by
  induction L with
  | nil =>
    intro tb tu ml _ _ _ htu hsum _ _ _
    exfalso
    simp [usdSum] at hsum
    linarith
  | cons hd tl ih =>
    obtain ⟨p, v⟩ := hd
    intro tb tu ml hpos hsort hlo htu hsum htb hlotb hhead
    have hp : 0 < p := (hpos (p, v) (List.mem_cons_self _ _)).1
    have hv : 0 < v := (hpos (p, v) (List.mem_cons_self _ _)).2
    have hlop : lo ≤ p := hlo (p, v) (List.mem_cons_self _ _)
    have hheadp : tu ≤ p * tb := hhead p v tl rfl
    by_cases hbr : target ≤ tu + p * v
    · -- the level covers the remaining target: partial take and break
      have hfw : fillWalk target ((p, v) :: tl) tb tu ml =
          (tb + (target - tu) / p, tu + (target - tu), ml + p * v) := by
        simp [fillWalk, hbr]
      have hlc : lastConsumedPrice target ((p, v) :: tl) tu = p := by
        simp [lastConsumedPrice, hbr]
      rw [hfw, hlc]
      have hrem : 0 < target - tu := by linarith
      have hremdiv : 0 < (target - tu) / p := div_pos hrem hp
      have hcancel : p * ((target - tu) / p) = target - tu :=
        mul_div_cancel₀ _ (ne_of_gt hp)
      refine ⟨by ring, by simp only []; linarith, ?_, ?_⟩
      · have h1 : lo * ((target - tu) / p) ≤ p * ((target - tu) / p) :=
          mul_le_mul_of_nonneg_right hlop (le_of_lt hremdiv)
        have h2 : lo * (tb + (target - tu) / p) =
            lo * tb + lo * ((target - tu) / p) := by ring
        rw [h2]
        calc lo * tb + lo * ((target - tu) / p)
            ≤ tu + p * ((target - tu) / p) := by linarith
          _ = tu + (target - tu) := by rw [hcancel]
          _ = target := by ring
      · have h2 : p * (tb + (target - tu) / p) =
            p * tb + p * ((target - tu) / p) := by ring
        rw [h2, hcancel]
        linarith
    · -- the level is consumed whole and the walk continues
      push_neg at hbr
      have htl_ne : tl ≠ [] := by
        intro h
        rw [h, usdSum_cons] at hsum
        simp [usdSum] at hsum
        linarith
      have hfw : fillWalk target ((p, v) :: tl) tb tu ml =
          fillWalk target tl (tb + v) (tu + p * v) (ml + p * v) := by
        simp [fillWalk, not_le.mpr hbr]
      have hlc : lastConsumedPrice target ((p, v) :: tl) tu =
          lastConsumedPrice target tl (tu + p * v) := by
        obtain ⟨hd', tl', rfl⟩ := List.exists_cons_of_ne_nil htl_ne
        simp [lastConsumedPrice, not_le.mpr hbr]
      rw [hfw, hlc]
      have hptl : ∀ pv ∈ tl, p ≤ pv.1 := by
        intro pv hpv
        exact (List.pairwise_cons.mp hsort).1 pv hpv
      refine ih (tb + v) (tu + p * v) (ml + p * v)
        (fun pv h => hpos pv (List.mem_cons_of_mem _ h))
        (List.pairwise_cons.mp hsort).2
        (fun pv h => hlo pv (List.mem_cons_of_mem _ h))
        hbr ?_ (by linarith) ?_ ?_
      · rw [usdSum_cons] at hsum
        linarith
      · have : lo * v ≤ p * v := mul_le_mul_of_nonneg_right hlop (le_of_lt hv)
        have h2 : lo * (tb + v) = lo * tb + lo * v := by ring
        linarith [h2.le, h2.ge]
      · intro p' v' rest' hrest
        have hpp' : p ≤ p' := by
          have := hptl (p', v') (by rw [hrest]; exact List.mem_cons_self _ _)
          simpa using this
        have h1 : tu + p * v ≤ p * tb + p * v := by linarith
        have h2 : p * tb + p * v = p * (tb + v) := by ring
        have h3 : p * (tb + v) ≤ p' * (tb + v) :=
          mul_le_mul_of_nonneg_right hpp' (by linarith)
        linarith

/-- Walk invariant on a descending (bid-side) book: mirror image of
`fillWalk_spec_asc`, bracketing the filled notional between
`lastConsumedPrice * base` and `hi * base`. -/
theorem fillWalk_spec_desc (target hi : ℚ) (L : List (ℚ × ℚ)) :
    ∀ tb tu ml : ℚ,
      (∀ pv ∈ L, 0 < pv.1 ∧ 0 < pv.2) →
      L.Pairwise (fun a b => b.1 ≤ a.1) →
      (∀ pv ∈ L, pv.1 ≤ hi) →
      tu < target → target ≤ tu + usdSum L →
      0 ≤ tb → tu ≤ hi * tb →
      (∀ p v rest, L = (p, v) :: rest → p * tb ≤ tu) →
      (fillWalk target L tb tu ml).2.1 = target ∧
      0 < (fillWalk target L tb tu ml).1 ∧
      lastConsumedPrice target L tu * (fillWalk target L tb tu ml).1 ≤ target ∧
      target ≤ hi * (fillWalk target L tb tu ml).1 := by
  induction L with
  | nil =>
    intro tb tu ml _ _ _ htu hsum _ _ _
    exfalso
    simp [usdSum] at hsum
    linarith
  | cons hd tl ih =>
    obtain ⟨p, v⟩ := hd
    intro tb tu ml hpos hsort hhi htu hsum htb hhitb hhead
    have hp : 0 < p := (hpos (p, v) (List.mem_cons_self _ _)).1
    have hv : 0 < v := (hpos (p, v) (List.mem_cons_self _ _)).2
    have hphi : p ≤ hi := hhi (p, v) (List.mem_cons_self _ _)
    have hheadp : p * tb ≤ tu := hhead p v tl rfl
    by_cases hbr : target ≤ tu + p * v
    · have hfw : fillWalk target ((p, v) :: tl) tb tu ml =
          (tb + (target - tu) / p, tu + (target - tu), ml + p * v) := by
        simp [fillWalk, hbr]
      have hlc : lastConsumedPrice target ((p, v) :: tl) tu = p := by
        simp [lastConsumedPrice, hbr]
      rw [hfw, hlc]
      have hrem : 0 < target - tu := by linarith
      have hremdiv : 0 < (target - tu) / p := div_pos hrem hp
      have hcancel : p * ((target - tu) / p) = target - tu :=
        mul_div_cancel₀ _ (ne_of_gt hp)
      refine ⟨by ring, by simp only []; linarith, ?_, ?_⟩
      · have h2 : p * (tb + (target - tu) / p) =
            p * tb + p * ((target - tu) / p) := by ring
        rw [h2, hcancel]
        linarith
      · have h1 : p * ((target - tu) / p) ≤ hi * ((target - tu) / p) :=
          mul_le_mul_of_nonneg_right hphi (le_of_lt hremdiv)
        have h2 : hi * (tb + (target - tu) / p) =
            hi * tb + hi * ((target - tu) / p) := by ring
        rw [h2]
        calc target = tu + (target - tu) := by ring
          _ = tu + p * ((target - tu) / p) := by rw [hcancel]
          _ ≤ hi * tb + hi * ((target - tu) / p) := by linarith
    · push_neg at hbr
      have htl_ne : tl ≠ [] := by
        intro h
        rw [h, usdSum_cons] at hsum
        simp [usdSum] at hsum
        linarith
      have hfw : fillWalk target ((p, v) :: tl) tb tu ml =
          fillWalk target tl (tb + v) (tu + p * v) (ml + p * v) := by
        simp [fillWalk, not_le.mpr hbr]
      have hlc : lastConsumedPrice target ((p, v) :: tl) tu =
          lastConsumedPrice target tl (tu + p * v) := by
        obtain ⟨hd', tl', rfl⟩ := List.exists_cons_of_ne_nil htl_ne
        simp [lastConsumedPrice, not_le.mpr hbr]
      rw [hfw, hlc]
      have hptl : ∀ pv ∈ tl, pv.1 ≤ p := by
        intro pv hpv
        exact (List.pairwise_cons.mp hsort).1 pv hpv
      refine ih (tb + v) (tu + p * v) (ml + p * v)
        (fun pv h => hpos pv (List.mem_cons_of_mem _ h))
        (List.pairwise_cons.mp hsort).2
        (fun pv h => hhi pv (List.mem_cons_of_mem _ h))
        hbr ?_ (by linarith) ?_ ?_
      · rw [usdSum_cons] at hsum
        linarith
      · have h1 : p * v ≤ hi * v := mul_le_mul_of_nonneg_right hphi (le_of_lt hv)
        have h2 : hi * (tb + v) = hi * tb + hi * v := by ring
        linarith [h2.le, h2.ge]
      · intro p' v' rest' hrest
        have hpp' : p' ≤ p := by
          have := hptl (p', v') (by rw [hrest]; exact List.mem_cons_self _ _)
          simpa using this
        have h3 : p' * (tb + v) ≤ p * (tb + v) :=
          mul_le_mul_of_nonneg_right hpp' (by linarith)
        have h2 : p * (tb + v) = p * tb + p * v := by ring
        linarith

theorem startsWithL_iff (p s : Sym) :
    startsWithL p s = true ↔ ∃ t, s = p ++ t := by
  induction p generalizing s with
  | nil => simp [startsWithL]
  | cons c cs ih =>
    cases s with
    | nil =>
      simp [startsWithL]
    | cons d ds =>
      simp only [startsWithL, Bool.and_eq_true, beq_iff_eq, ih,
        List.cons_append, List.cons.injEq]
      constructor
      · rintro ⟨rfl, t, rfl⟩
        exact ⟨t, rfl, rfl⟩
      · rintro ⟨t, rfl, rfl⟩
        exact ⟨rfl, t, rfl⟩

theorem endsWithL_iff (p s : Sym) :
    endsWithL p s = true ↔ ∃ t, s = t ++ p := by
  rw [endsWithL, startsWithL_iff]
  constructor
  · rintro ⟨t, ht⟩
    refine ⟨t.reverse, ?_⟩
    have := congrArg List.reverse ht
    simpa using this
  · rintro ⟨t, rfl⟩
    exact ⟨t.reverse, by simp⟩

theorem splitSlash_no_slash (s : Sym) (h : '/' ∉ s) :
    splitSlash s = [s] := by
  induction s with
  | nil => simp [splitSlash]
  | cons c cs ih =>
    have hc : ¬ (c = '/') := fun hc => h (hc ▸ List.mem_cons_self _ _)
    have hcs : '/' ∉ cs := fun hm => h (List.mem_cons_of_mem _ hm)
    rw [splitSlash, if_neg hc, ih hcs]

theorem splitSlash_wf (b q : Sym) (hb : '/' ∉ b) (hq : '/' ∉ q) :
    splitSlash (b ++ '/' :: q) = [b, q] := by
  induction b with
  | nil =>
    simp [splitSlash, splitSlash_no_slash q hq]
  | cons c cs ih =>
    have hc : ¬ (c = '/') := fun hc => hb (hc ▸ List.mem_cons_self _ _)
    have hcs : '/' ∉ cs := fun hm => hb (List.mem_cons_of_mem _ hm)
    rw [List.cons_append, splitSlash, if_neg hc, ih hcs]

theorem eq_slash_parts (t : Sym) :
    ∀ b u q : Sym, '/' ∉ t → '/' ∉ u → '/' ∉ b → '/' ∉ q →
      t ++ '/' :: u = b ++ '/' :: q → t = b ∧ u = q := by
  induction t with
  | nil =>
    intro b u q _ _ hb _ h
    cases b with
    | nil =>
      simp only [List.nil_append, List.cons.injEq] at h
      exact ⟨rfl, h.2⟩
    | cons c cs =>
      simp only [List.nil_append, List.cons_append, List.cons.injEq] at h
      exact absurd (h.1 ▸ List.mem_cons_self _ _) hb
  | cons c cs ih =>
    intro b u q ht hu hb hq h
    cases b with
    | nil =>
      simp only [List.cons_append, List.nil_append, List.cons.injEq] at h
      exact absurd (h.1.symm ▸ List.mem_cons_self _ _) ht
    | cons d ds =>
      simp only [List.cons_append, List.cons.injEq] at h
      have hcs : '/' ∉ cs := fun hm => ht (List.mem_cons_of_mem _ hm)
      have hds : '/' ∉ ds := fun hm => hb (List.mem_cons_of_mem _ hm)
      obtain ⟨rfl, h2⟩ := h
      obtain ⟨rfl, rfl⟩ := (ih ds u q hcs hu hds hq h2).imp id id
      exact ⟨rfl, rfl⟩

/-- A symbol with exactly one slash splits as `base ++ '/' :: quote`. -/
theorem wf_decomp (s : Sym) (h : s.count '/' = 1) :
    ∃ b q, s = b ++ '/' :: q ∧ '/' ∉ b ∧ '/' ∉ q := by
  induction s with
  | nil => simp at h
  | cons c cs ih =>
    by_cases hc : c = '/'
    · subst hc
      rw [List.count_cons_self] at h
      have hcs : '/' ∉ cs := List.not_mem_of_count_eq_zero (by omega)
      exact ⟨[], cs, rfl, by simp, hcs⟩
    · rw [List.count_cons_of_ne (fun hh => hc hh.symm)] at h
      obtain ⟨b, q, rfl, hb, hq⟩ := ih h
      exact ⟨c :: b, q, rfl, by
        intro hm
        rcases List.mem_cons.mp hm with hm | hm
        · exact hc hm.symm
        · exact hb hm, hq⟩

theorem triExpand_nodup (symbols : List Sym) (base sym1 sym2 : Sym) :
    (triExpand symbols base sym1 sym2).Nodup := by
  simp only [triExpand]
  split_ifs <;> simp

/-- Any tuple emitted by the loop body determines the `base`, `sym1` and
`sym2` that produced it, provided the symbols are well-formed
(exactly one slash each). -/
theorem triExpand_shape (symbols : List Sym) (base sym1 sym2 : Sym)
    (x : Sym × Sym × Sym) (hbase : '/' ∉ base)
    (h1 : sym1.count '/' = 1) (h2 : sym2.count '/' = 1)
    (hx : x ∈ triExpand symbols base sym1 sym2) :
    x.1 = base ∧ sym1 = x.2.1 ++ '/' :: base ∧
    sym2 = x.2.1 ++ '/' :: x.2.2 ∧ '/' ∉ x.2.1 := by
  simp only [triExpand] at hx
  split_ifs at hx with hend hstart hmem
  rotate_left
  · exact absurd hx (List.not_mem_nil _)
  · exact absurd hx (List.not_mem_nil _)
  · exact absurd hx (List.not_mem_nil _)
  -- all three guards hold: x is the emitted tuple
  obtain ⟨b1, q1, hs1, hb1, hq1⟩ := wf_decomp sym1 h1
  obtain ⟨t, hts⟩ := (endsWithL_iff ('/' :: base) sym1).mp hend
  have hcb : base.count '/' = 0 := List.count_eq_zero.mpr hbase
  have hct : t.count '/' = 0 := by
    have := h1
    rw [hts, List.count_append, List.count_cons_self, hcb] at this
    omega
  have htns : '/' ∉ t := List.count_eq_zero.mp hct
  obtain ⟨rfl, rfl⟩ :=
    eq_slash_parts t b1 base q1 htns hbase hb1 hq1 (hts ▸ hs1 : _)
  -- sym1 = b1 ++ '/' :: base, so mid1 = b1
  have hmid1 : (splitSlash sym1).headD [] = t := by
    rw [hs1, splitSlash_wf t base htns hbase]
    rfl
  rw [hmid1] at hstart hx
  obtain ⟨b2, q2, hs2, hb2, hq2⟩ := wf_decomp sym2 h2
  obtain ⟨t2, ht2⟩ := (startsWithL_iff (t ++ ['/']) sym2).mp hstart
  have ht2' : sym2 = t ++ '/' :: t2 := by
    rw [ht2, List.append_assoc]
    rfl
  have hct2 : t2.count '/' = 0 := by
    have := h2
    rw [ht2', List.count_append, List.count_cons_self,
      List.count_eq_zero.mpr htns] at this
    omega
  have ht2ns : '/' ∉ t2 := List.count_eq_zero.mp hct2
  obtain ⟨rfl, rfl⟩ :=
    eq_slash_parts t b2 t2 q2 htns ht2ns hb2 hq2 (ht2' ▸ hs2 : _)
  have hmid2 : ((splitSlash sym2).drop 1).headD [] = t2 := by
    rw [hs2, splitSlash_wf t t2 htns ht2ns]
    rfl
  rw [hmid2] at hx
  rw [List.mem_singleton] at hx
  subst hx
  exact ⟨rfl, hs1, hs2, htns⟩

/-- Claim C6 (amended): on a duplicate-free catalog of well-formed
`base/quote` symbols (exactly one slash each), `find_triangles` returns
each cycle tuple at most once. -/
theorem C6_find_triangles_nodup_of_wellformed (symbols : List Sym)
    (hnd : symbols.Nodup) (hwf : ∀ s ∈ symbols, s.count '/' = 1) :
    (find_triangles symbols).Nodup := by
  have hbases : ∀ base ∈ START_COINS, '/' ∉ base := by decide
  have hscnd : START_COINS.Nodup := by decide
  unfold find_triangles
  rw [List.nodup_flatMap]
  constructor
  · intro base hbase
    rw [List.nodup_flatMap]
    constructor
    · intro sym1 hs1
      rw [List.nodup_flatMap]
      refine ⟨fun sym2 _ => triExpand_nodup symbols base sym1 sym2, ?_⟩
      refine List.Pairwise.imp_of_mem ?_ hnd
      intro a b ha hb hne
      simp only [Function.onFun]
      intro x hxa hxb
      obtain ⟨-, -, hsa, -⟩ := triExpand_shape symbols base sym1 a x
        (hbases base hbase) (hwf sym1 hs1) (hwf a ha) hxa
      obtain ⟨-, -, hsb, -⟩ := triExpand_shape symbols base sym1 b x
        (hbases base hbase) (hwf sym1 hs1) (hwf b hb) hxb
      exact hne (hsa.trans hsb.symm)
    · refine List.Pairwise.imp_of_mem ?_ hnd
      intro a b ha hb hne
      simp only [Function.onFun]
      intro x hxa hxb
      rw [List.mem_flatMap] at hxa hxb
      obtain ⟨sa, hsa_mem, hxa⟩ := hxa
      obtain ⟨sb, hsb_mem, hxb⟩ := hxb
      obtain ⟨-, ha1, -, -⟩ := triExpand_shape symbols base a sa x
        (hbases base hbase) (hwf a ha) (hwf sa hsa_mem) hxa
      obtain ⟨-, hb1, -, -⟩ := triExpand_shape symbols base b sb x
        (hbases base hbase) (hwf b hb) (hwf sb hsb_mem) hxb
      exact hne (ha1.trans hb1.symm)
  · refine List.Pairwise.imp_of_mem ?_ hscnd
    intro a b ha hb hne
    simp only [Function.onFun]
    intro x hxa hxb
    rw [List.mem_flatMap] at hxa hxb
    obtain ⟨s1a, hm1a, hxa⟩ := hxa
    obtain ⟨s2a, hm2a, hxa⟩ := List.mem_flatMap.mp hxa
    obtain ⟨s1b, hm1b, hxb⟩ := hxb
    obtain ⟨s2b, hm2b, hxb⟩ := List.mem_flatMap.mp hxb
    obtain ⟨hxa1, -, -, -⟩ := triExpand_shape symbols a s1a s2a x
      (hbases a ha) (hwf s1a hm1a) (hwf s2a hm2a) hxa
    obtain ⟨hxb1, -, -, -⟩ := triExpand_shape symbols b s1b s2b x
      (hbases b hb) (hwf s1b hm1b) (hwf s2b hm2b) hxb
    exact hne (hxa1.symm.trans hxb1)

theorem check_trade_limits_characterization (cfg : Config) (now : ℚ)
    (hist : List ℚ) (susp : Bool) :
    ((check_trade_limits cfg now hist susp).allowed = true ↔
      ¬ (cfg.max_trades_per_minute ≤
           (hist.filter (fun t => now - t < 60)).length ∨
         cfg.max_trades_per_hour ≤
           (hist.filter (fun t => now - t < 3600)).length ∨
         cfg.max_trades_per_day ≤
           (hist.filter (fun t => now - t < 86400)).length)) ∧
    ((check_trade_limits cfg now hist susp).suspended = true ↔
      (cfg.max_trades_per_minute ≤
         (hist.filter (fun t => now - t < 60)).length ∨
       cfg.max_trades_per_hour ≤
         (hist.filter (fun t => now - t < 3600)).length ∨
       cfg.max_trades_per_day ≤
         (hist.filter (fun t => now - t < 86400)).length)) ∧
    ((check_trade_limits cfg now hist susp).susNotifs =
      if (cfg.max_trades_per_minute ≤
            (hist.filter (fun t => now - t < 60)).length ∨
          cfg.max_trades_per_hour ≤
            (hist.filter (fun t => now - t < 3600)).length ∨
          cfg.max_trades_per_day ≤
            (hist.filter (fun t => now - t < 86400)).length) ∧ susp = false
      then 1 else 0) ∧
    ((check_trade_limits cfg now hist susp).resumeNotifs =
      if ¬ (cfg.max_trades_per_minute ≤
              (hist.filter (fun t => now - t < 60)).length ∨
            cfg.max_trades_per_hour ≤
              (hist.filter (fun t => now - t < 3600)).length ∨
            cfg.max_trades_per_day ≤
              (hist.filter (fun t => now - t < 86400)).length) ∧ susp = true
      then 1 else 0) ∧
    (cfg.max_trades_per_minute ≤
       (hist.filter (fun t => now - t < 60)).length →
     (check_trade_limits cfg now hist susp).reason = LimitReason.minute) := by
  by_cases hm : cfg.max_trades_per_minute ≤
      (hist.filter (fun t => now - t < 60)).length
  all_goals by_cases hh : cfg.max_trades_per_hour ≤
      (hist.filter (fun t => now - t < 3600)).length
  all_goals by_cases hd : cfg.max_trades_per_day ≤
      (hist.filter (fun t => now - t < 86400)).length
  all_goals cases susp
  all_goals simp [check_trade_limits, hm, hh, hd]

theorem run_legs_only_place (place : ℕ → Bool) :
    ∀ (steps : List Step) (i : ℕ) (e : Ev),
      e ∈ (run_legs place steps i).2 → ∃ s sd a, e = Ev.placeOrder s sd a := by
  intro steps
  induction steps with
  | nil =>
    intro i e he
    simp [run_legs] at he
  | cons hd tl ih =>
    obtain ⟨sy, sd, am⟩ := hd
    intro i e he
    by_cases hp : place i = true
    · simp only [run_legs, if_pos hp] at he
      rcases List.mem_cons.mp he with h | h
      · exact ⟨sy, sd, am, h⟩
      · exact ih (i + 1) e h
    · simp only [run_legs, if_neg hp, List.mem_singleton] at he
      exact ⟨sy, sd, am, he⟩

theorem run_legs_count_lockRelease (place : ℕ → Bool)
    (steps : List Step) (i : ℕ) :
    ((run_legs place steps i).2).count Ev.lockRelease = 0 := by
  refine List.count_eq_zero.mpr ?_
  intro hmem
  obtain ⟨s, sd, a, he⟩ := run_legs_only_place place steps i _ hmem
  exact absurd he (by simp)

theorem run_legs_first_fail (place : ℕ → Bool) :
    ∀ (steps : List Step) (i j : ℕ), j < steps.length →
      place (i + j) = false → (∀ k, k < j → place (i + k) = true) →
      run_legs place steps i =
        (false,
         (steps.take (j + 1)).map (fun s => Ev.placeOrder s.1 s.2.1 s.2.2)) := by
  intro steps
  induction steps with
  | nil =>
    intro i j hj
    simp at hj
  | cons hd tl ih =>
    obtain ⟨sy, sd, am⟩ := hd
    intro i j hj hfail hpre
    cases j with
    | zero =>
      have hp : place i = false := by simpa using hfail
      simp [run_legs, hp]
    | succ j' =>
      have hp : place i = true := by
        simpa using hpre 0 (Nat.succ_pos _)
      have hrec := ih (i + 1) j'
        (by simpa [Nat.succ_lt_succ_iff] using hj)
        (by
          have h0 := hfail
          rw [show i + (j' + 1) = (i + 1) + j' by omega] at h0
          exact h0)
        (fun k hk => by
          have h0 := hpre (k + 1) (by omega)
          rw [show i + (k + 1) = (i + 1) + k by omega] at h0
          exact h0)
      simp [run_legs, hp, hrec]

theorem placedOf_map_place (l : List Step) :
    placedOf (l.map (fun s => Ev.placeOrder s.1 s.2.1 s.2.2)) = l := by
  induction l with
  | nil => simp [placedOf]
  | cons hd tl ih =>
    simp only [placedOf, List.map_cons, List.filterMap_cons] at ih ⊢
    rw [ih]

theorem placedOf_append (l1 l2 : List Ev) :
    placedOf (l1 ++ l2) = placedOf l1 ++ placedOf l2 := by
  simp [placedOf, List.filterMap_append]

theorem can_execute_stamped_raises (cfg : Config) (now : ℚ)
    (st : SysState) (route : Sym) (t : ℚ)
    (hst : st.last_trade_time = .stamp t)
    (hact : st.active_trades = []) :
    can_execute_trade cfg now st route = .error .attributeError := by
  obtain ⟨act, th, susp, bal, lv⟩ := st
  simp only [] at hst hact
  subst hst
  subst hact
  simp [can_execute_trade, MAX_CONCURRENT_TRADES]

/-- On a state whose `last_trade_time` has been rebound to a timestamp
and with no in-flight trade, `check_triangle` leaves the state
untouched and reports no success: every path either returns early or
hits the `AttributeError` from the admission gate. -/
theorem check_triangle_stamped (cfg : Config) (inp : TriInput)
    (st : SysState) (t : ℚ) (hst : st.last_trade_time = .stamp t)
    (hact : st.active_trades = []) :
    (check_triangle cfg inp st).1 = st ∧
    (check_triangle cfg inp st).2.1 = false := by
  simp only [check_triangle]
  split_ifs
  all_goals try exact ⟨rfl, rfl⟩
  rw [can_execute_stamped_raises cfg inp.now st _ t hst hact]
  exact ⟨rfl, rfl⟩

theorem guard_preserves_active_and_lastv (cfg : Config) (now : ℚ)
    (st : SysState) (b : Bool) (st2 : SysState)
    (h : guard_after_cooldown cfg now st = .ok (b, st2)) :
    st2.active_trades = st.active_trades ∧
    st2.last_trade_time = st.last_trade_time := by
  unfold guard_after_cooldown at h
  simp only [] at h
  split_ifs at h <;>
    · simp only [Except.ok.injEq, Prod.mk.injEq] at h
      rw [← h.2]
      exact ⟨rfl, rfl⟩

theorem can_execute_preserves_active_and_lastv (cfg : Config) (now : ℚ)
    (st : SysState) (route : Sym) (b : Bool) (st2 : SysState)
    (h : can_execute_trade cfg now st route = .ok (b, st2)) :
    st2.active_trades = st.active_trades ∧
    st2.last_trade_time = st.last_trade_time := by
  unfold can_execute_trade at h
  split_ifs at h with hcap
  · simp only [Except.ok.injEq, Prod.mk.injEq] at h
    rw [← h.2]
    exact ⟨rfl, rfl⟩
  · rcases hlt : st.last_trade_time with m | t
    rotate_left
    · rw [hlt] at h
      simp at h
    · rw [hlt] at h
      simp only [] at h
      rcases hg : assocGet m route with - | lt <;>
        rw [hg] at h <;> simp only [] at h
      · obtain ⟨g1, g2⟩ := guard_preserves_active_and_lastv cfg now st b st2 h
        exact ⟨g1, g2.trans hlt⟩
      · split_ifs at h with hcd
        · simp only [Except.ok.injEq, Prod.mk.injEq] at h
          rw [← h.2]
          exact ⟨rfl, hlt⟩
        · obtain ⟨g1, g2⟩ := guard_preserves_active_and_lastv cfg now st b st2 h
          exact ⟨g1, g2.trans hlt⟩

theorem refresh_balances_model_lastv (st : SysState)
    (fb : Option (List (Sym × ℚ))) :
    (refresh_balances_model st fb).last_trade_time = st.last_trade_time := by
  cases fb <;> rfl

theorem refresh_balances_model_active (st : SysState)
    (fb : Option (List (Sym × ℚ))) :
    (refresh_balances_model st fb).active_trades = st.active_trades := by
  cases fb <;> rfl

theorem execute_real_trade_active (place : ℕ → Bool) (now : ℚ)
    (route : Sym) (steps : List Step) (st : SysState) :
    (execute_real_trade place now route steps st).2.1.active_trades =
      assocErase st.active_trades route := by
  obtain ⟨act, th, susp, bal, lv⟩ := st
  cases lv <;>
    simp [execute_real_trade, assocErase_assocSet]

theorem do_execute_active (cfg : Config) (inp : TriInput)
    (st2 : SysState) (route_id s1 s2 s3 : Sym) (p1 p2 : ℚ)
    (h2 : st2.active_trades = []) :
    (do_execute cfg inp st2 route_id s1 s2 s3 p1 p2).1.active_trades = [] := by
  have hact := execute_real_trade_active inp.place inp.now route_id
    [(s1, Side.buy, cfg.target_volume),
     (s2, Side.buy, cfg.target_volume / p1 * (1 - cfg.commission)),
     (s3, Side.sell,
       cfg.target_volume / p1 / p2 * (1 - 2 * cfg.commission))] st2
  rw [h2] at hact
  simp only [assocErase] at hact
  unfold do_execute
  simp only []
  rcases hR : execute_real_trade inp.place inp.now route_id
    [(s1, Side.buy, cfg.target_volume),
     (s2, Side.buy, cfg.target_volume / p1 * (1 - cfg.commission)),
     (s3, Side.sell,
       cfg.target_volume / p1 / p2 * (1 - 2 * cfg.commission))] st2
    with ⟨res, stx, evs⟩
  rw [hR] at hact
  simp only [] at hact
  cases res with
  | error e => exact hact
  | ok succ =>
    cases succ
    · simpa [refresh_balances_model_active] using hact
    · simpa [refresh_balances_model_active] using hact

theorem do_execute_success_stamps (cfg : Config) (inp : TriInput)
    (st2 : SysState) (route_id s1 s2 s3 : Sym) (p1 p2 : ℚ)
    (h : (do_execute cfg inp st2 route_id s1 s2 s3 p1 p2).2.1 = true) :
    (do_execute cfg inp st2 route_id s1 s2 s3 p1 p2).1.last_trade_time =
      LastVar.stamp inp.now := by
  unfold do_execute at h ⊢
  simp only [] at h ⊢
  generalize hR : execute_real_trade inp.place inp.now route_id
    [(s1, Side.buy, cfg.target_volume),
     (s2, Side.buy, cfg.target_volume / p1 * (1 - cfg.commission)),
     (s3, Side.sell,
       cfg.target_volume / p1 / p2 * (1 - 2 * cfg.commission))] st2 = R
    at h ⊢
  obtain ⟨res, stx, evs⟩ := R
  cases res with
  | error e => exact absurd h (by simp)
  | ok succ =>
    cases succ
    · exact absurd h (by simp)
    · simp [refresh_balances_model_lastv]

/-- The four possible shapes of a `check_triangle` result: an early
return with the state untouched, a gate exception, a gate rejection, or
a gate acceptance followed by `do_execute`. -/
theorem check_triangle_cases (cfg : Config) (inp : TriInput)
    (st : SysState) :
    check_triangle cfg inp st = (st, false, []) ∨
    (∃ e, can_execute_trade cfg inp.now st
        (mkRoute inp.base inp.mid1 inp.mid2) = .error e ∧
      check_triangle cfg inp st =
        (st, false, [.riskCheck, .errorNotify])) ∨
    (∃ st2, can_execute_trade cfg inp.now st
        (mkRoute inp.base inp.mid1 inp.mid2) = .ok (false, st2) ∧
      check_triangle cfg inp st = (st2, false, [.riskCheck])) ∨
    (∃ st2 p1 p2, can_execute_trade cfg inp.now st
        (mkRoute inp.base inp.mid1 inp.mid2) = .ok (true, st2) ∧
      check_triangle cfg inp st =
        do_execute cfg inp st2 (mkRoute inp.base inp.mid1 inp.mid2)
          (inp.mid1 ++ '/' :: inp.base) (inp.mid2 ++ '/' :: inp.mid1)
          (inp.mid2 ++ '/' :: inp.base) p1 p2) := by
  simp only [check_triangle]
  split_ifs
  all_goals try exact Or.inl rfl
  rcases hce : can_execute_trade cfg inp.now st
    (mkRoute inp.base inp.mid1 inp.mid2) with e | ⟨b, st2⟩
  · exact Or.inr (Or.inl ⟨e, rfl, rfl⟩)
  · cases b
    · exact Or.inr (Or.inr (Or.inl ⟨st2, rfl, rfl⟩))
    · exact Or.inr (Or.inr (Or.inr ⟨st2, _, _, rfl, rfl⟩))

theorem check_triangle_active (cfg : Config) (inp : TriInput)
    (st : SysState) (hact : st.active_trades = []) :
    (check_triangle cfg inp st).1.active_trades = [] := by
  rcases check_triangle_cases cfg inp st with h | ⟨e, -, h⟩ |
    ⟨st2, hce, h⟩ | ⟨st2, p1, p2, hce, h⟩
  · rw [h]
    exact hact
  · rw [h]
    exact hact
  · rw [h]
    exact ((can_execute_preserves_active_and_lastv cfg inp.now st _ _ _
      hce).1).trans hact
  · rw [h]
    exact do_execute_active cfg inp st2 _ _ _ _ p1 p2
      (((can_execute_preserves_active_and_lastv cfg inp.now st _ _ _
        hce).1).trans hact)

theorem check_triangle_success_stamps (cfg : Config) (inp : TriInput)
    (st : SysState) (h : (check_triangle cfg inp st).2.1 = true) :
    (check_triangle cfg inp st).1.last_trade_time =
      LastVar.stamp inp.now := by
  rcases check_triangle_cases cfg inp st with hc | ⟨e, -, hc⟩ |
    ⟨st2, -, hc⟩ | ⟨st2, p1, p2, -, hc⟩
  · rw [hc] at h
    exact absurd h (by simp)
  · rw [hc] at h
    exact absurd h (by simp)
  · rw [hc] at h
    exact absurd h (by simp)
  · rw [hc] at h ⊢
    exact do_execute_success_stamps cfg inp st2 _ _ _ _ p1 p2 h

theorem cleanup_active (t : ℚ) (st : SysState) :
    (cleanup_old_data t st).active_trades = st.active_trades := by
  obtain ⟨act, th, susp, bal, lv⟩ := st
  cases lv <;> rfl

theorem cleanup_stamped (t : ℚ) (st : SysState) (ts : ℚ)
    (h : st.last_trade_time = .stamp ts) :
    (cleanup_old_data t st).last_trade_time = .stamp ts := by
  obtain ⟨act, th, susp, bal, lv⟩ := st
  simp only [] at h
  subst h
  rfl

/-- Core invariant behind claim C9: starting from any state with no
in-flight trade, a run performs at most one successful trade, and a run
whose state is already stamped performs none. -/
theorem runEvents_bound (cfg : Config) :
    ∀ (evs : List RunEv) (st : SysState), st.active_trades = [] →
      ((∃ t, st.last_trade_time = .stamp t) →
        (runEvents cfg st evs).2 = 0) ∧
      (runEvents cfg st evs).2 ≤ 1 := by
  intro evs
  induction evs with
  | nil =>
    intro st hact
    simp [runEvents]
  | cons e rest ih =>
    intro st hact
    cases e with
    | tri inp =>
      have hact' : (check_triangle cfg inp st).1.active_trades = [] :=
        check_triangle_active cfg inp st hact
      obtain ⟨ih0, ih1⟩ := ih (check_triangle cfg inp st).1 hact'
      constructor
      · rintro ⟨t, hst⟩
        obtain ⟨hfix, hsucc⟩ := check_triangle_stamped cfg inp st t hst hact
        have h0 : (runEvents cfg (check_triangle cfg inp st).1 rest).2 = 0 :=
          ih0 ⟨t, by rw [hfix]; exact hst⟩
        simp [runEvents, hsucc, h0]
      · by_cases hsucc : (check_triangle cfg inp st).2.1 = true
        · have hstamp := check_triangle_success_stamps cfg inp st hsucc
          have h0 : (runEvents cfg (check_triangle cfg inp st).1 rest).2 = 0 :=
            ih0 ⟨inp.now, hstamp⟩
          simp [runEvents, hsucc, h0]
        · have hf : (check_triangle cfg inp st).2.1 = false := by
            revert hsucc
            cases (check_triangle cfg inp st).2.1 <;> simp
          simp only [runEvents, hf, if_false]
          simpa using ih1
    | sweep t =>
      obtain ⟨ih0, ih1⟩ := ih (cleanup_old_data t st)
        (by rw [cleanup_active]; exact hact)
      refine ⟨?_, by simpa [runEvents] using ih1⟩
      rintro ⟨ts, hst⟩
      simpa [runEvents] using ih0 ⟨ts, cleanup_stamped t st ts hst⟩

end Console

/-- Claim C6 counterexample: on the catalog `symsDup` (whose symbols are
distinct, but one of which contains two slashes) `find_triangles`
returns the tuple `(USDT, A, B)` twice, so its output is not
duplicate-free for every symbol catalog. -/
theorem C6_find_triangles_duplicate_counterexample :
    ¬ (Console.find_triangles Console.symsDup).Nodup := by decide

/-- Claim C3: for every level sequence ordered best-to-worst (ascending
ask prices or descending bid prices, all levels positive) and every
positive target notional covered by the book, `get_avg_price` returns a
non-null estimate whose filled notional equals the target exactly and
whose average price lies between the best level's price and the
last-consumed level's price. -/
theorem C3_estimator_fills_target_between_prices (L : List (ℚ × ℚ))
    (T : ℚ) (hpos : ∀ pv ∈ L, 0 < pv.1 ∧ 0 < pv.2) (hT : 0 < T)
    (hsum : T ≤ Console.usdSum L)
    (hord : Console.pricesAsc L ∨ Console.pricesDesc L) :
    ∃ avg ml, Console.get_avg_price L T = (some avg, T, ml) ∧
      min (Console.bestPrice L) (Console.lastConsumedPrice T L 0) ≤ avg ∧
      avg ≤ max (Console.bestPrice L) (Console.lastConsumedPrice T L 0) := by
  have hL : L ≠ [] := by
    intro h
    rw [h] at hsum
    simp [Console.usdSum] at hsum
    linarith
  obtain ⟨⟨p0, v0⟩, rest, rfl⟩ := List.exists_cons_of_ne_nil hL
  have hbest : Console.bestPrice ((p0, v0) :: rest) = p0 := by
    simp [Console.bestPrice]
  set L := (p0, v0) :: rest with hLdef
  obtain hasc | hdesc := hord
  · -- ascending book: the best price is the low end
    have hlo : ∀ pv ∈ L, p0 ≤ pv.1 := by
      intro pv hpv
      rcases List.mem_cons.mp hpv with h | h
      · rw [h]
      · exact (List.pairwise_cons.mp hasc).1 pv h
    obtain ⟨hTU, hTB, hlow, hup⟩ :=
      Console.fillWalk_spec_asc T p0 L 0 0 0 hpos hasc hlo hT
        (by linarith) le_rfl (by simp) (by intro p v r h; simp)
    have h9 : ¬ ((Console.fillWalk T L 0 0 0).2.1 < T * (9 / 10)) := by
      rw [hTU]
      intro h
      linarith
    refine ⟨(Console.fillWalk T L 0 0 0).2.1 / (Console.fillWalk T L 0 0 0).1,
      (Console.fillWalk T L 0 0 0).2.2, ?_, ?_, ?_⟩
    · have h9' : ¬ (T < T * (9 / 10)) := by intro h; linarith
      simp only [Console.get_avg_price, hTU, if_neg h9']
    · rw [hTU, hbest]
      refine le_trans (min_le_left _ _) ?_
      rw [le_div_iff₀ hTB]
      exact hlow
    · rw [hTU, hbest]
      refine le_trans ?_ (le_max_right _ _)
      rw [div_le_iff₀ hTB]
      exact hup
  · -- descending book: the best price is the high end
    have hhi : ∀ pv ∈ L, pv.1 ≤ p0 := by
      intro pv hpv
      rcases List.mem_cons.mp hpv with h | h
      · rw [h]
      · exact (List.pairwise_cons.mp hdesc).1 pv h
    obtain ⟨hTU, hTB, hlow, hup⟩ :=
      Console.fillWalk_spec_desc T p0 L 0 0 0 hpos hdesc hhi hT
        (by linarith) le_rfl (by simp) (by intro p v r h; simp)
    have h9 : ¬ ((Console.fillWalk T L 0 0 0).2.1 < T * (9 / 10)) := by
      rw [hTU]
      intro h
      linarith
    refine ⟨(Console.fillWalk T L 0 0 0).2.1 / (Console.fillWalk T L 0 0 0).1,
      (Console.fillWalk T L 0 0 0).2.2, ?_, ?_, ?_⟩
    · have h9' : ¬ (T < T * (9 / 10)) := by intro h; linarith
      simp only [Console.get_avg_price, hTU, if_neg h9']
    · rw [hTU, hbest]
      refine le_trans (min_le_right _ _) ?_
      rw [le_div_iff₀ hTB]
      exact hlow
    · rw [hTU, hbest]
      refine le_trans ?_ (le_max_left _ _)
      rw [div_le_iff₀ hTB]
      exact hup

/-- Concrete instantiation of the C3 theorem: ascending two-level ask
book `[(1,1),(2,1)]`, target `3/2`. -/
theorem C3_estimator_fills_target_between_prices_witness :
    ((∀ pv ∈ [((1 : ℚ), (1 : ℚ)), (2, 1)], 0 < pv.1 ∧ 0 < pv.2) ∧
      (0 : ℚ) < 3 / 2 ∧
      (3 / 2 : ℚ) ≤ Console.usdSum [(1, 1), (2, 1)] ∧
      (Console.pricesAsc [((1 : ℚ), (1 : ℚ)), (2, 1)] ∨
        Console.pricesDesc [((1 : ℚ), (1 : ℚ)), (2, 1)])) ∧
    (∃ avg ml,
      Console.get_avg_price [((1 : ℚ), (1 : ℚ)), (2, 1)] (3 / 2) =
        (some avg, 3 / 2, ml) ∧
      min (Console.bestPrice [((1 : ℚ), (1 : ℚ)), (2, 1)])
          (Console.lastConsumedPrice (3 / 2) [(1, 1), (2, 1)] 0) ≤ avg ∧
      avg ≤ max (Console.bestPrice [((1 : ℚ), (1 : ℚ)), (2, 1)])
          (Console.lastConsumedPrice (3 / 2) [(1, 1), (2, 1)] 0)) := by
  have hpos : ∀ pv ∈ [((1 : ℚ), (1 : ℚ)), (2, 1)], 0 < pv.1 ∧ 0 < pv.2 := by
    intro pv hpv
    simp only [List.mem_cons, List.not_mem_nil, or_false] at hpv
    rcases hpv with h | h <;> rw [h] <;> norm_num
  have hT : (0 : ℚ) < 3 / 2 := by norm_num
  have hsum : (3 / 2 : ℚ) ≤ Console.usdSum [(1, 1), (2, 1)] := by
    norm_num [Console.usdSum]
  have hord : Console.pricesAsc [((1 : ℚ), (1 : ℚ)), (2, 1)] ∨
      Console.pricesDesc [((1 : ℚ), (1 : ℚ)), (2, 1)] := by
    left
    unfold Console.pricesAsc
    refine List.pairwise_cons.mpr ⟨?_, List.pairwise_cons.mpr ⟨by simp, List.Pairwise.nil⟩⟩
    intro pv hpv
    simp only [List.mem_singleton] at hpv
    rw [hpv]
    norm_num
  exact ⟨⟨hpos, hT, hsum, hord⟩,
    C3_estimator_fills_target_between_prices _ _ hpos hT hsum hord⟩

/-- Claim C10: a non-null estimate from `get_avg_price` always carries a
filled notional of at least 90% of the requested target, so for a
positive target the evaluator's first-leg 80% volume gate
(`vol1 < TARGET_VOLUME_USDT * 0.8`) can never reject an estimate the
estimator accepted. -/
theorem C10_nonnull_estimate_passes_80pct_gate (L : List (ℚ × ℚ))
    (T p v m : ℚ) (hT : 0 < T)
    (h : Console.get_avg_price L T = (some p, v, m)) :
    T * (9 / 10) ≤ v ∧ ¬ (v < T * (8 / 10)) := by
  simp only [Console.get_avg_price] at h
  split at h
  · simp at h
  · rename_i hge
    push_neg at hge
    have hv' : v = (Console.fillWalk T L 0 0 0).2.1 := by
      simpa using (congrArg (fun x => x.2.1) h).symm
    constructor
    · rw [hv']
      exact hge
    · intro hlt
      rw [hv'] at hlt
      linarith

/-- Concrete instantiation of the C10 theorem: single-level book
`[(1,2)]`, target `1`, which the estimator accepts with filled
notional `1`. -/
theorem C10_nonnull_estimate_passes_80pct_gate_witness :
    ((0 : ℚ) < 1 ∧
      Console.get_avg_price [((1 : ℚ), (2 : ℚ))] 1 = (some 1, 1, 2)) ∧
    ((1 : ℚ) * (9 / 10) ≤ 1 ∧ ¬ ((1 : ℚ) < 1 * (8 / 10))) := by
  have h : Console.get_avg_price [((1 : ℚ), (2 : ℚ))] 1 = (some 1, 1, 2) := by
    norm_num [Console.get_avg_price, Console.fillWalk]
  have hT : (0 : ℚ) < 1 := by norm_num
  exact ⟨⟨hT, h⟩,
    C10_nonnull_estimate_passes_80pct_gate [((1 : ℚ), (2 : ℚ))] 1 1 1 2 hT h⟩

/-- Concrete instantiation of the C6 amended theorem: the catalog
`BTC/USDT, ETH/BTC, ETH/USDT` is duplicate-free and well-formed, and the
builder output on it is duplicate-free. -/
theorem C6_find_triangles_nodup_of_wellformed_witness :
    (Console.symsTri.Nodup ∧
      ∀ s ∈ Console.symsTri, s.count '/' = 1) ∧
    (Console.find_triangles Console.symsTri).Nodup :=
  ⟨⟨by decide, by decide⟩,
    Console.C6_find_triangles_nodup_of_wellformed Console.symsTri
      (by decide) (by decide)⟩

/-- Claim C1: contrary to the claim, `can_execute_trade` does not
register the route in `active_trades` before returning Accept: two
admission checks against the same fresh state (concurrency cap 1) both
return Accept, and the returned state still has an empty
`active_trades` map.  The InFlight registration only happens later, in
`execute_real_trade`, after suspending awaits. -/
theorem C1_two_admission_checks_both_accept :
    Console.can_execute_trade Console.defaultConfig 0 Console.stC1
      Console.routeA = .ok (true, Console.stC1) ∧
    Console.can_execute_trade Console.defaultConfig 0 Console.stC1
      Console.routeB = .ok (true, Console.stC1) ∧
    Console.routeA ≠ Console.routeB ∧
    Console.stC1.active_trades = [] ∧
    Console.MAX_CONCURRENT_TRADES = 1 := by
  refine ⟨?_, ?_, by decide, rfl, rfl⟩ <;>
    norm_num [Console.can_execute_trade, Console.guard_after_cooldown,
      Console.check_trade_limits, Console.assocGet, Console.stC1,
      Console.MAX_CONCURRENT_TRADES, Console.defaultConfig]

/-- Claim C2: after a successful trade the `last_trade_time` global is
a bare timestamp, so an admission check for the same route made 60
seconds later (inside the 300-second cooldown) raises `AttributeError`
instead of returning a Reject decision. -/
theorem C2_check_in_cooldown_raises_after_success :
    (60 : ℚ) - 0 < Console.TRADE_COOLDOWN ∧
    Console.stStamped.last_trade_time = .stamp 0 ∧
    Console.can_execute_trade Console.defaultConfig 60 Console.stStamped
      Console.routeA = .error .attributeError := by
  refine ⟨by norm_num [Console.TRADE_COOLDOWN], rfl, ?_⟩
  norm_num [Console.can_execute_trade, Console.stStamped,
    Console.MAX_CONCURRENT_TRADES]

/-- Claim C7 counterexample: for the BTC-anchored route, with the BTC
balance at zero (far below `tradeVolume * 1.1`) but a healthy USDT
balance, the admission check still accepts: the balance floor always
reads the USDT balance, never the route's anchor currency. -/
theorem C7_anchor_balance_ignored_counterexample :
    Console.BTC ∈ Console.START_COINS ∧
    (Console.assocGet Console.stC7.current_balances Console.BTC).getD 0 <
      Console.defaultConfig.target_volume * (11 / 10) ∧
    Console.can_execute_trade Console.defaultConfig 0 Console.stC7
      Console.routeBTC = .ok (true, Console.stC7) := by
  refine ⟨by decide, ?_, ?_⟩ <;>
    norm_num [Console.can_execute_trade, Console.guard_after_cooldown,
      Console.check_trade_limits, Console.assocGet, Console.stC7,
      Console.MAX_CONCURRENT_TRADES, Console.defaultConfig, Console.BTC,
      Console.USDT]

/-- Claim C7 (amended): whenever the USDT balance is below
`tradeVolume * 1.1`, any admission check that returns a decision
returns Reject, whatever the route and its anchor. -/
theorem C7_admission_rejects_on_low_usdt_balance (cfg : Console.Config)
    (now : ℚ) (st : Console.SysState) (route : Console.Sym) (b : Bool)
    (st2 : Console.SysState)
    (hbal : (Console.assocGet st.current_balances Console.USDT).getD 0 <
      cfg.target_volume * (11 / 10))
    (h : Console.can_execute_trade cfg now st route = .ok (b, st2)) :
    b = false := by
  have hguard : ∀ b' st2',
      Console.guard_after_cooldown cfg now st = .ok (b', st2') →
      b' = false := by
    intro b' st2' hg
    unfold Console.guard_after_cooldown at hg
    simp only [] at hg
    by_cases hallow :
        (Console.check_trade_limits cfg now st.trade_history
          st.trade_limits_suspended).allowed = false
    · rw [if_pos hallow] at hg
      simp only [Except.ok.injEq, Prod.mk.injEq] at hg
      exact hg.1.symm
    · rw [if_neg hallow, if_pos hbal] at hg
      simp only [Except.ok.injEq, Prod.mk.injEq] at hg
      exact hg.1.symm
  unfold Console.can_execute_trade at h
  by_cases hcap : Console.MAX_CONCURRENT_TRADES ≤ st.active_trades.length
  · rw [if_pos hcap] at h
    simp only [Except.ok.injEq, Prod.mk.injEq] at h
    exact h.1.symm
  · rw [if_neg hcap] at h
    rcases hlt : st.last_trade_time with m | t
    rotate_left
    · rw [hlt] at h
      simp at h
    · rw [hlt] at h
      simp only [] at h
      rcases hg : Console.assocGet m route with - | lt <;>
        rw [hg] at h <;> simp only [] at h
      · exact hguard b st2 h
      · by_cases hcd : now - lt < Console.TRADE_COOLDOWN
        · rw [if_pos hcd] at h
          simp only [Except.ok.injEq, Prod.mk.injEq] at h
          exact h.1.symm
        · rw [if_neg hcd] at h
          exact hguard b st2 h

/-- Concrete instantiation of the C7 amended theorem: with a USDT
balance of 5 (below 11) the check rejects. -/
theorem C7_admission_rejects_on_low_usdt_balance_witness :
    ((Console.assocGet Console.stLowBal.current_balances
        Console.USDT).getD 0 <
      Console.defaultConfig.target_volume * (11 / 10)) ∧
    Console.can_execute_trade Console.defaultConfig 0 Console.stLowBal
      Console.routeA = .ok (false, Console.stLowBal) ∧
    false = false := by
  have hbal : (Console.assocGet Console.stLowBal.current_balances
      Console.USDT).getD 0 <
      Console.defaultConfig.target_volume * (11 / 10) := by
    norm_num [Console.assocGet, Console.stLowBal, Console.defaultConfig]
  have heval : Console.can_execute_trade Console.defaultConfig 0
      Console.stLowBal Console.routeA = .ok (false, Console.stLowBal) := by
    norm_num [Console.can_execute_trade, Console.guard_after_cooldown,
      Console.check_trade_limits, Console.assocGet, Console.stLowBal,
      Console.MAX_CONCURRENT_TRADES, Console.defaultConfig]
  exact ⟨hbal, heval,
    C7_admission_rejects_on_low_usdt_balance Console.defaultConfig 0
      Console.stLowBal Console.routeA false Console.stLowBal hbal heval⟩

/-- Claim C8: for every executor call made while the per-route map is
still a dict (which holds for every reachable call, since the admission
gate raises otherwise), the InFlight lock is released exactly once and
the route's completion timestamp is stamped on every exit path; and
when leg `j` is the first to fail, the executor returns failure having
attempted exactly the first `j + 1` legs, in order, and nothing else —
no later leg and no compensating trade. -/
theorem C8_executor_failure_path_and_lock (place : ℕ → Bool) (now : ℚ)
    (route : Console.Sym) (steps : List Console.Step)
    (m : List (Console.Sym × ℚ)) (st : Console.SysState)
    (hm : st.last_trade_time = Console.LastVar.dict m) :
    (((Console.execute_real_trade place now route steps st).2.2).count
        Console.Ev.lockRelease = 1 ∧
      Console.assocGet
        ((Console.execute_real_trade place now route steps
            st).2.1).active_trades route = none ∧
      ((Console.execute_real_trade place now route steps
          st).2.1).last_trade_time =
        Console.LastVar.dict (Console.assocSet m route now) ∧
      Console.assocGet (Console.assocSet m route now) route = some now) ∧
    (∀ j, j < steps.length → place j = false →
      (∀ i, i < j → place i = true) →
      (Console.execute_real_trade place now route steps st).1 =
        .ok false ∧
      Console.placedOf
          ((Console.execute_real_trade place now route steps st).2.2) =
        steps.take (j + 1)) := by
  obtain ⟨act, th, susp, bal, lv⟩ := st
  simp only [] at hm
  subst hm
  constructor
  · refine ⟨?_, ?_, rfl, Console.assocGet_assocSet m route now⟩
    · simp only [Console.execute_real_trade, List.count_append,
        Console.run_legs_count_lockRelease]
      simp [List.count_cons]
    · simp only [Console.execute_real_trade]
      exact Console.assocGet_assocErase _ _
  · intro j hj hfail hpre
    have hrl := Console.run_legs_first_fail place steps 0 j hj
      (by simpa using hfail) (fun k hk => by simpa using hpre k hk)
    constructor
    · simp only [Console.execute_real_trade, hrl]
    · simp only [Console.execute_real_trade, hrl,
        Console.placedOf_append, Console.placedOf_map_place]
      simp [Console.placedOf]

/-- Concrete instantiation of the C8 theorem: three legs, the order
placement failing on leg 2 (index 1): the executor places legs 1 and 2
only, returns failure, and releases the lock exactly once. -/
theorem C8_executor_failure_path_and_lock_witness :
    Console.initState.last_trade_time = Console.LastVar.dict [] ∧
    Console.wPlace 1 = false ∧ 1 < Console.wSteps.length ∧
    ((Console.execute_real_trade Console.wPlace 5 Console.routeA
        Console.wSteps Console.initState).1 = .ok false ∧
      Console.placedOf
          ((Console.execute_real_trade Console.wPlace 5 Console.routeA
              Console.wSteps Console.initState).2.2) =
        Console.wSteps.take 2) ∧
    ((Console.execute_real_trade Console.wPlace 5 Console.routeA
        Console.wSteps Console.initState).2.2).count
      Console.Ev.lockRelease = 1 := by
  have H := C8_executor_failure_path_and_lock Console.wPlace 5
    Console.routeA Console.wSteps [] Console.initState rfl
  refine ⟨rfl, rfl, by norm_num [Console.wSteps], ?_, H.1.1⟩
  refine H.2 1 (by norm_num [Console.wSteps]) rfl ?_
  intro i hi
  have h0 : i = 0 := Nat.lt_one_iff.mp hi
  subst h0
  rfl

/-- Claim C5: whenever the chained net return computed from the three
estimated prices lies outside `[minProfit, maxProfit]`, the evaluation
stops before the risk-guard check: `check_triangle` reports no success,
never consults the admission gate, and never places any order. -/
theorem C5_out_of_band_profit_stops_before_gate (cfg : Console.Config)
    (inp : Console.TriInput) (st : Console.SysState)
    (p1 v1 l1 p2 v2 l2 p3 v3 l3 : ℚ)
    (h1 : inp.est (inp.mid1 ++ '/' :: inp.base) .buy cfg.target_volume =
      (some p1, v1, l1))
    (h2 : inp.est (inp.mid2 ++ '/' :: inp.mid1) .buy (v1 * (99 / 100)) =
      (some p2, v2, l2))
    (h3 : inp.est (inp.mid2 ++ '/' :: inp.base) .sell (v2 * (99 / 100)) =
      (some p3, v3, l3))
    (hband : ¬ (cfg.min_profit ≤ Console.profit_percent cfg p1 p2 p3 ∧
      Console.profit_percent cfg p1 p2 p3 ≤ cfg.max_profit)) :
    (Console.check_triangle cfg inp st).2.1 = false ∧
    Console.Ev.riskCheck ∉ (Console.check_triangle cfg inp st).2.2 ∧
    ∀ s sd a,
      Console.Ev.placeOrder s sd a ∉ (Console.check_triangle cfg inp st).2.2 := by
  simp only [Console.check_triangle, h1, h2, h3, Console.pyFalsy,
    Option.getD]
  split_ifs
  all_goals exact ⟨rfl, by simp, fun s sd a => by simp⟩

/-- Claim C9: in any run started from the reset globals, at most one
successful trade is ever executed: the first success rebinds the
per-route `last_trade_time` map to a bare timestamp, and from then on
every admission check performed with no trade in flight raises
`AttributeError` instead of returning a decision, so the gate guarding
execution can never pass again. -/
theorem C9_at_most_one_successful_trade_per_run :
    (∀ (cfg : Console.Config) (evs : List Console.RunEv),
      (Console.runEvents cfg Console.initState evs).2 ≤ 1) ∧
    (∀ (cfg : Console.Config) (now : ℚ) (st : Console.SysState)
      (route : Console.Sym) (t : ℚ),
      st.last_trade_time = Console.LastVar.stamp t →
      st.active_trades = [] →
      Console.can_execute_trade cfg now st route =
        .error .attributeError) :=
  ⟨fun cfg evs =>
    (Console.runEvents_bound cfg evs Console.initState rfl).2,
   fun cfg now st route t h1 h2 =>
    Console.can_execute_stamped_raises cfg now st route t h1 h2⟩

/-- Concrete instantiation of the C9 theorem: the empty run executes at
most one trade, and on the stamped post-success state the admission
check raises. -/
theorem C9_at_most_one_successful_trade_per_run_witness :
    (Console.runEvents Console.defaultConfig Console.initState []).2 ≤ 1 ∧
    Console.stStamped.last_trade_time = Console.LastVar.stamp 0 ∧
    Console.stStamped.active_trades = [] ∧
    Console.can_execute_trade Console.defaultConfig 60 Console.stStamped
      Console.routeB = .error .attributeError :=
  ⟨C9_at_most_one_successful_trade_per_run.1 Console.defaultConfig [],
   rfl, rfl,
   C9_at_most_one_successful_trade_per_run.2 Console.defaultConfig 60
     Console.stStamped Console.routeB 0 rfl rfl⟩

/-- Concrete instantiation of the C5 theorem: a constant estimator
returning price 1 on all three legs yields a chained return of about
-0.3% (three commissions), below `minProfit = 0.15`; the evaluation
reports no success, no risk-guard check and no order placement. -/
theorem C5_out_of_band_profit_stops_before_gate_witness :
    (Console.wTriInput.est
        (Console.wTriInput.mid1 ++ '/' :: Console.wTriInput.base) .buy
        Console.defaultConfig.target_volume = (some 1, 10, 10)) ∧
    ¬ (Console.defaultConfig.min_profit ≤
        Console.profit_percent Console.defaultConfig 1 1 1 ∧
      Console.profit_percent Console.defaultConfig 1 1 1 ≤
        Console.defaultConfig.max_profit) ∧
    ((Console.check_triangle Console.defaultConfig Console.wTriInput
        Console.initState).2.1 = false ∧
      Console.Ev.riskCheck ∉
        (Console.check_triangle Console.defaultConfig Console.wTriInput
          Console.initState).2.2 ∧
      ∀ s sd a, Console.Ev.placeOrder s sd a ∉
        (Console.check_triangle Console.defaultConfig Console.wTriInput
          Console.initState).2.2) := by
  have hband : ¬ (Console.defaultConfig.min_profit ≤
      Console.profit_percent Console.defaultConfig 1 1 1 ∧
    Console.profit_percent Console.defaultConfig 1 1 1 ≤
      Console.defaultConfig.max_profit) := by
    norm_num [Console.profit_percent, Console.defaultConfig]
  exact ⟨rfl, hband,
    C5_out_of_band_profit_stops_before_gate Console.defaultConfig
      Console.wTriInput Console.initState 1 10 10 1 10 10 1 10 10
      rfl rfl rfl hband⟩
